import Mathlib

/-!
Verification development for the attribution pipeline of
MolRep/Explainer/explainerExperiments.py (class ExplainerExperiments).

Importance values are modelled as rationals; per-molecule importance
vectors are lists of rationals (the scalar, one-dimensional case that all
the examined behaviour concerns).  A molecule is represented by its bond
list as produced by the chemistry library: an ordered list of
(beginAtomIdx, endAtomIdx) pairs.  Python dictionaries keyed by indices
are modelled as functions from Nat to Option.
-/

namespace MolRep

/-- Highlight colour triple, as in the source constants. -/
abbrev Color := ℚ × ℚ × ℚ

/-- Source constant GREEN_COL = (0, 1, 0). -/
def GREEN_COL : Color := (0, 1, 0)

/-- Source constant RED_COL = (1, 0, 0). -/
def RED_COL : Color := (1, 0, 0)

/-! ## Attribution aggregation (preprocessing_attributions, lines 138-149)

The source, per molecule: collect bond_idx from mol.GetBonds(), then
for (atom_i_idx, atom_j_idx), b_imp in zip(bond_idx, bond_imp):
  atom_imp[atom_i_idx] += b_imp / 2
  atom_imp[atom_j_idx] += b_imp / 2
-/

/-- Models the in-place update atom_imp[i] += d on a numpy vector
(for an in-range index). -/
def addAt (l : List ℚ) (i : Nat) (d : ℚ) : List ℚ :=
  l.set i (l.getD i 0 + d)

/-- The zip loop of preprocessing_attributions: each bond importance is
halved and added to both endpoint atoms, sequentially, in bond order.
Python zip truncates to the shorter of the two sequences. -/
def aggregate_bonds (bond_idx : List (Nat × Nat)) (bond_imp : List ℚ)
    (atom_imp : List ℚ) : List ℚ :=
  (bond_idx.zip bond_imp).foldl
    (fun acc pb => addAt (addAt acc pb.1.1 (pb.2 / 2)) pb.1.2 (pb.2 / 2))
    atom_imp

/-- Per-molecule branch of preprocessing_attributions: when the bond
importance input is None the atom vector is appended unchanged. -/
def aggregate_molecule (bond_idx : List (Nat × Nat))
    (bond_imp : Option (List ℚ)) (atom_imp : List ℚ) : List ℚ :=
  match bond_imp with
  | none => atom_imp
  | some bi => aggregate_bonds bond_idx bi atom_imp

/-! ## Normalization (normalize_attributions, lines 274-288)

The source concatenates all vectors, optionally keeps only the strictly
positive values (all_values[all_values > 0] if positive else all_values),
builds a QuantileTransformer when normalizer == 'QuantileTransformer'
and a MinMaxScaler otherwise, fits it on the pooled values and
transforms every vector with the single fitted transform.  Fitting an
empty pool raises in sklearn, so the model returns none there.
-/

/-- Minimum of a pooled value list (the fitted data minimum). -/
def dataMin : List ℚ → ℚ
  | [] => 0
  | x :: xs => xs.foldl min x

/-- Maximum of a pooled value list (the fitted data maximum). -/
def dataMax : List ℚ → ℚ
  | [] => 0
  | x :: xs => xs.foldl max x

/-- Models sklearn MinMaxScaler (external library) fitted on the pool:
transform x = (x - min) * scale with scale = 1 / (max - min); sklearn
replaces a zero range by a unit divisor, so the degenerate pool gives
scale = 1.  The transform is not clipped to the unit interval. -/
def minMaxTransform (pool : List ℚ) (x : ℚ) : ℚ :=
  let mn := dataMin pool
  let mx := dataMax pool
  (x - mn) * (if mx = mn then 1 else 1 / (mx - mn))

/-- Modelled from the spec: sklearn QuantileTransformer (external
library, not part of this repository) maps each value to its quantile
rank within the pooled distribution, a monotone map into the unit
interval; the library's interpolation between discrete quantiles is
abstracted by the empirical distribution function. -/
def quantileTransform (pool : List ℚ) (x : ℚ) : ℚ :=
  if pool.length = 0 then 0
  else (pool.countP (fun y => decide (y ≤ x)) : ℚ) / (pool.length : ℚ)

/-- Source normalize_attributions(att_list, positive=False,
normalizer='MinMaxScaler'): pools all values, keeps only the strictly
positive ones when positive is truthy, fits the selected transform on
the pool and applies it to every vector.  Any normalizer string other
than 'QuantileTransformer' selects the MinMaxScaler (the else branch).
Returns none when the fitted pool is empty (sklearn raises there). -/
def normalize_attributions (att_list : List (List ℚ)) (positive : Bool)
    (normalizer : String) : Option (List (List ℚ)) :=
  let all_values := att_list.flatten
  let pool := if positive then all_values.filter (fun x => decide (0 < x)) else all_values
  if pool.isEmpty then none
  else if normalizer = "QuantileTransformer" then
    some (att_list.map (fun att => att.map (quantileTransform pool)))
  else
    some (att_list.map (fun att => att.map (minMaxTransform pool)))

/-- Source preprocessing_attributions(smiles_list, atom_importance,
bond_importance, normalizer='MinMaxScaler').  The molecule list is
represented by its resolved bond lists (one per smiles).  For each
molecule the bond importances, when present, are folded onto the atoms;
then the source calls self.normalize_attributions(att_probs, normalizer)
with POSITIONAL arguments, so the strategy string is bound to the
positive parameter (truthy for every nonempty string, per Python) and
the normalizer parameter keeps its default value 'MinMaxScaler'. -/
def preprocessing_attributions (bond_lists : List (List (Nat × Nat)))
    (atom_importance : List (List ℚ))
    (bond_importance : Option (List (List ℚ)))
    (normalizer : String) : Option (List (List ℚ)) :=
  let att_probs := (List.range bond_lists.length).map (fun idx =>
    aggregate_molecule (bond_lists.getD idx [])
      (bond_importance.map (fun bi => bi.getD idx []))
      (atom_importance.getD idx []))
  normalize_attributions att_probs (normalizer != "") "MinMaxScaler"

/-! ## Cliff evaluation (evaluate_cliffs, lines 242-272)

For each ground-truth pair record the source looks up both identifiers
with smiles_list.index (which raises ValueError when absent), appends
att_probs[idx_1], attribution_1, att_probs[idx_2], attribution_2 to the
two flat lists, and finally binarizes every predicted vector with
1 if att > 0.5 else -1 if att < -0.5 else 0.
-/

/-- A ground-truth pair record of the cliff dataset. -/
structure PairRecord where
  SMILES_1 : String
  SMILES_2 : String
  attribution_1 : List ℚ
  attribution_2 : List ℚ

/-- Errors surfaced by the cliff evaluation. -/
inductive CliffError where
  | lookupFailure : CliffError
deriving DecidableEq

/-- Models Python list.index: position of the first exact match, none
when the element is absent (where Python raises ValueError). -/
def list_index (l : List String) (s : String) : Option Nat :=
  match l with
  | [] => none
  | x :: rest => if x = s then some 0 else (list_index rest s).map (· + 1)

/-- The pair loop of evaluate_cliffs: resolve both identifiers of each
record in order, abort the whole call on a failed lookup, and otherwise
extend the flat predicted and ground-truth lists in pair order. -/
def cliff_assemble (smiles_list : List String) (att_probs : List (List ℚ)) :
    List PairRecord → Except CliffError (List (List ℚ) × List (List ℚ))
  | [] => Except.ok ([], [])
  | p :: rest =>
    match list_index smiles_list p.SMILES_1 with
    | none => Except.error CliffError.lookupFailure
    | some idx_1 =>
      match list_index smiles_list p.SMILES_2 with
      | none => Except.error CliffError.lookupFailure
      | some idx_2 =>
        match cliff_assemble smiles_list att_probs rest with
        | Except.error e => Except.error e
        | Except.ok (resetRest, trueRest) =>
          Except.ok (att_probs.getD idx_1 [] :: att_probs.getD idx_2 [] :: resetRest,
                     p.attribution_1 :: p.attribution_2 :: trueRest)

/-- The three-way binarization of line 265:
1 if att > 0.5 else -1 if att < -0.5 else 0. -/
def binarize3 (att : ℚ) : ℤ :=
  if att > 1/2 then 1 else if att < -(1/2) then -1 else 0

/-- Assembly and binarization core of evaluate_cliffs: the aligned
predicted list, the aligned ground-truth list, and the binarized
predicted list (metric computation is delegated to att_metrics). -/
def evaluate_cliffs_core (smiles_list : List String) (att_probs : List (List ℚ))
    (att_true_pair : List PairRecord) :
    Except CliffError (List (List ℚ) × List (List ℚ) × List (List ℤ)) :=
  match cliff_assemble smiles_list att_probs att_true_pair with
  | Except.error e => Except.error e
  | Except.ok (reset, tru) =>
    Except.ok (reset, tru, reset.map (fun att => att.map binarize3))

/-! ## Coloring policy (determine_atom_col lines 181-190,
determine_bond_col lines 207-214)

Python dictionaries atom_col and bond_col are modelled as functions
from an index to Option; dictionary insertion is pointwise update.
-/

/-- Dictionary insertion d[i] = x. -/
def upd {α : Type} (f : Nat → Option α) (i : Nat) (x : α) : Nat → Option α :=
  fun j => if j = i then some x else f j

/-- Models the Python format string for three decimal places applied to
an importance value: sign, integer part, and the fractional part padded
to exactly three digits, after rounding at the third decimal. -/
def format3 (v : ℚ) : String :=
  let sgn := if v < 0 then "-" else ""
  let n : Nat := (round (|v| * 1000)).toNat
  let ip := n / 1000
  let fp := n % 1000
  sgn ++ toString ip ++ "." ++
    (if fp < 10 then "00" else if fp < 100 then "0" else "") ++ toString fp

/-- Loop body of determine_atom_col for one atom at index idx: when
v > eps the atom is coloured RED_COL; when v < -eps it is (again)
coloured RED_COL and, when set_weights holds, its note text is set to
the value rendered with three decimal places; both ifs are tested
independently, as in the source. -/
def atom_col_step (eps : ℚ) (sw : Bool) (idx : Nat) (v : ℚ)
    (acc : (Nat → Option Color) × (Nat → Option String)) :
    (Nat → Option Color) × (Nat → Option String) :=
  let acc1 := if v > eps then (upd acc.1 idx RED_COL, acc.2) else acc
  if v < -eps then
    (upd acc1.1 idx RED_COL, if sw then upd acc1.2 idx (format3 v) else acc1.2)
  else acc1

/-- The enumerate loop of determine_atom_col. -/
def determine_atom_col_aux (eps : ℚ) (sw : Bool) :
    Nat → List ℚ → ((Nat → Option Color) × (Nat → Option String)) →
    ((Nat → Option Color) × (Nat → Option String))
  | _, [], acc => acc
  | idx, v :: rest, acc =>
    determine_atom_col_aux eps sw (idx + 1) rest (atom_col_step eps sw idx v acc)

/-- Source determine_atom_col: returns the atom colour dictionary and
the per-atom note texts attached to the molecule copy. -/
def determine_atom_col (atom_importance : List ℚ) (eps : ℚ) (set_weights : Bool) :
    (Nat → Option Color) × (Nat → Option String) :=
  determine_atom_col_aux eps set_weights 0 atom_importance (fun _ => none, fun _ => none)

/-- Loop body of determine_bond_col for one bond at index idx: a bond
whose endpoints both carry a colour, and the same colour, is given that
shared colour; any other bond is left uncoloured. -/
def bond_col_step (atom_col : Nat → Option Color) (idx : Nat) (b : Nat × Nat)
    (acc : Nat → Option Color) : Nat → Option Color :=
  match atom_col b.1, atom_col b.2 with
  | some ci, some cj => if ci = cj then upd acc idx ci else acc
  | _, _ => acc

/-- The enumerate loop of determine_bond_col. -/
def determine_bond_col_aux (atom_col : Nat → Option Color) :
    Nat → List (Nat × Nat) → (Nat → Option Color) → (Nat → Option Color)
  | _, [], acc => acc
  | idx, b :: rest, acc =>
    determine_bond_col_aux atom_col (idx + 1) rest (bond_col_step atom_col idx b acc)

/-- Source determine_bond_col over the molecule bond list. -/
def determine_bond_col (atom_col : Nat → Option Color)
    (bonds : List (Nat × Nat)) : Nat → Option Color :=
  determine_bond_col_aux atom_col 0 bonds (fun _ => none)

/-! ## Helper lemmas about the aggregation loop -/

theorem addAt_length (l : List ℚ) (i : Nat) (d : ℚ) : (addAt l i d).length = l.length := by
  simp [addAt]

theorem getD_addAt (l : List ℚ) (i : Nat) (d : ℚ) (k : Nat) (hi : i < l.length) :
    (addAt l i d).getD k 0 = l.getD k 0 + if i = k then d else 0 := by
  induction l generalizing i k with
  | nil => simp at hi
  | cons x xs ih =>
    cases i with
    | zero =>
      cases k with
      | zero => simp [addAt]
      | succ k => simp [addAt]
    | succ i =>
      cases k with
      | zero => simp [addAt]
      | succ k =>
        have hi' : i < xs.length := by simpa using hi
        simpa [addAt] using ih i k hi'

theorem sum_addAt (l : List ℚ) (i : Nat) (d : ℚ) (hi : i < l.length) :
    (addAt l i d).sum = l.sum + d := by
  induction l generalizing i with
  | nil => simp at hi
  | cons x xs ih =>
    cases i with
    | zero => simp [addAt]; ring
    | succ i =>
      have hi' : i < xs.length := by simpa using hi
      have := ih i hi'
      simp [addAt] at this ⊢
      rw [this]; ring

theorem aggregate_bonds_getD : ∀ (bonds : List (Nat × Nat)) (imp : List ℚ) (atom : List ℚ),
    bonds.length = imp.length →
    (∀ p ∈ bonds, p.1 < atom.length ∧ p.2 < atom.length) →
    ∀ k, k < atom.length →
    (aggregate_bonds bonds imp atom).getD k 0 =
      atom.getD k 0 + ((bonds.zip imp).map
        (fun pb => (if pb.1.1 = k then pb.2 / 2 else 0) +
          (if pb.1.2 = k then pb.2 / 2 else 0))).sum := by
  intro bonds
  induction bonds with
  | nil =>
    intro imp atom h1 _ k _
    have : imp = [] := by
      cases imp with
      | nil => rfl
      | cons b bi => simp at h1
    subst this
    simp [aggregate_bonds]
  | cons p bs ih =>
    intro imp atom h1 h2 k hk
    cases imp with
    | nil => simp at h1
    | cons b bi =>
      have hlen : bs.length = bi.length := by simpa using h1
      have hp := h2 p (List.mem_cons_self _ _)
      have hstep : aggregate_bonds (p :: bs) (b :: bi) atom
          = aggregate_bonds bs bi (addAt (addAt atom p.1 (b / 2)) p.2 (b / 2)) := by
        simp [aggregate_bonds]
      rw [hstep]
      have hlen1 : (addAt (addAt atom p.1 (b / 2)) p.2 (b / 2)).length = atom.length := by
        simp [addAt_length]
      have h2' : ∀ q ∈ bs, q.1 < (addAt (addAt atom p.1 (b / 2)) p.2 (b / 2)).length ∧
          q.2 < (addAt (addAt atom p.1 (b / 2)) p.2 (b / 2)).length := by
        intro q hq
        rw [hlen1]
        exact h2 q (List.mem_cons_of_mem _ hq)
      rw [ih bi _ hlen h2' k (by rw [hlen1]; exact hk)]
      rw [getD_addAt _ _ _ _ (by rw [addAt_length]; exact hp.2)]
      rw [getD_addAt _ _ _ _ hp.1]
      simp
      ring

theorem aggregate_bonds_sum : ∀ (bonds : List (Nat × Nat)) (imp : List ℚ) (atom : List ℚ),
    bonds.length = imp.length →
    (∀ p ∈ bonds, p.1 < atom.length ∧ p.2 < atom.length) →
    (aggregate_bonds bonds imp atom).sum = atom.sum + imp.sum := by
  intro bonds
  induction bonds with
  | nil =>
    intro imp atom h1 _
    have : imp = [] := by
      cases imp with
      | nil => rfl
      | cons b bi => simp at h1
    subst this
    simp [aggregate_bonds]
  | cons p bs ih =>
    intro imp atom h1 h2
    cases imp with
    | nil => simp at h1
    | cons b bi =>
      have hlen : bs.length = bi.length := by simpa using h1
      have hp := h2 p (List.mem_cons_self _ _)
      have hstep : aggregate_bonds (p :: bs) (b :: bi) atom
          = aggregate_bonds bs bi (addAt (addAt atom p.1 (b / 2)) p.2 (b / 2)) := by
        simp [aggregate_bonds]
      rw [hstep]
      have hlen1 : (addAt (addAt atom p.1 (b / 2)) p.2 (b / 2)).length = atom.length := by
        simp [addAt_length]
      have h2' : ∀ q ∈ bs, q.1 < (addAt (addAt atom p.1 (b / 2)) p.2 (b / 2)).length ∧
          q.2 < (addAt (addAt atom p.1 (b / 2)) p.2 (b / 2)).length := by
        intro q hq
        rw [hlen1]
        exact h2 q (List.mem_cons_of_mem _ hq)
      rw [ih bi _ hlen h2']
      rw [sum_addAt _ _ _ (by rw [addAt_length]; exact hp.2)]
      rw [sum_addAt _ _ _ hp.1]
      simp
      ring

theorem zip_truncate {α β : Type} : ∀ (l1 : List α) (l2 : List β),
    l1.zip l2 = (l1.take l2.length).zip (l2.take l1.length) := by
  intro l1
  induction l1 with
  | nil => intro l2; simp
  | cons a t1 ih =>
    intro l2
    cases l2 with
    | nil => simp
    | cons b t2 => simp [ih t2]

end MolRep

namespace MolRep

/-- C1: claimed by the spec, every min-max normalized value produced
through the attribution preprocessing pipeline lies in the unit
interval with pooled maximum at 1 and pooled minimum at 0.  The code
violates this: the call site at line 153 passes the strategy string
positionally into the positive parameter of normalize_attributions, so
the scaler is fitted only on the strictly positive pooled values and a
negative input is mapped below 0.  At the failing input (one molecule,
atom importances [-1, 1, 2], no bond importances, strategy
'MinMaxScaler') the pipeline returns [[-2, 0, 1]]: the value -2 lies
outside the unit interval and the pooled minimum -1 is not mapped to 0.
A direct call of normalize_attributions with positive = false on the
same data does satisfy the claimed range, locating the defect at the
call site. -/
theorem C1_pipeline_breaks_unit_range :
    preprocessing_attributions [[]] [[-1, 1, 2]] none "MinMaxScaler" = some [[-2, 0, 1]] ∧
    ((-2 : ℚ) < 0) ∧
    normalize_attributions [[-1, 1, 2]] false "MinMaxScaler" = some [[0, 2/3, 1]] := by
  refine ⟨?_, by norm_num, ?_⟩
  · simp [preprocessing_attributions, normalize_attributions,
      aggregate_molecule, minMaxTransform, dataMin, dataMax, List.range_succ]
    norm_num
  · simp [normalize_attributions, minMaxTransform, dataMin, dataMax]
    norm_num

/-- C2: preprocessing_attributions returns identical output for any two
(nonempty, hence truthy in Python) values of its normalizer argument:
the call site binds that string to the positive parameter of
normalize_attributions, so the fitted transform is always a
MinMaxScaler fitted on the strictly positive pooled values, regardless
of the requested strategy. -/
theorem C2_normalizer_argument_irrelevant :
    ∀ (bond_lists : List (List (Nat × Nat))) (atom_importance : List (List ℚ))
      (bond_importance : Option (List (List ℚ))) (s1 s2 : String),
      s1 ≠ "" → s2 ≠ "" →
      preprocessing_attributions bond_lists atom_importance bond_importance s1 =
        preprocessing_attributions bond_lists atom_importance bond_importance s2 := by
  intro bl ai bi s1 s2 h1 h2
  simp only [preprocessing_attributions]
  have e1 : (s1 != "") = true := by simpa using h1
  have e2 : (s2 != "") = true := by simpa using h2
  rw [e1, e2]

/-- Witness for C2 at a concrete input: the two strategy names of the
source produce the same preprocessing output. -/
theorem C2_witness :
    ("MinMaxScaler" : String) ≠ "" ∧ ("QuantileTransformer" : String) ≠ "" ∧
    preprocessing_attributions [[]] [[-1, 1, 2]] none "MinMaxScaler" =
      preprocessing_attributions [[]] [[-1, 1, 2]] none "QuantileTransformer" :=
  ⟨by decide, by decide,
    C2_normalizer_argument_irrelevant [[]] [[-1, 1, 2]] none
      "MinMaxScaler" "QuantileTransformer" (by decide) (by decide)⟩

/-- C3 counterexample: the claim says a bond-list versus
bond-importance length mismatch signals a ShapeMismatch error and never
yields a partial result.  The source zips the two sequences, so with two
bonds and a single importance the second bond is silently dropped and a
partial aggregation is returned. -/
theorem C3_mismatch_counterexample :
    aggregate_bonds [(0, 1), (1, 2)] [1] [0, 0, 0] = [1/2, 1/2, 0] := by
  simp [aggregate_bonds, addAt]

/-- C3 amended: on a length mismatch the aggregation loop silently
truncates to the shorter of the bond list and the bond importance
vector (Python zip semantics) and returns the resulting partial
aggregation; no error is signalled. -/
theorem C3_mismatch_truncates :
    ∀ (bonds : List (Nat × Nat)) (imp : List ℚ) (atom : List ℚ),
      aggregate_bonds bonds imp atom =
        aggregate_bonds (bonds.take imp.length) (imp.take bonds.length) atom := by
  intro bonds imp atom
  simp only [aggregate_bonds]
  rw [← zip_truncate]

/-- C4: for equal-length bond and importance lists with valid endpoint
indices, aggregation adds half of each bond importance to each endpoint
atom score; the end-to-end three-atom example of the spec holds; and an
absent bond importance input leaves the atom vector unchanged. -/
theorem C4_aggregation_spec :
    (∀ (bonds : List (Nat × Nat)) (imp : List ℚ) (atom : List ℚ),
      bonds.length = imp.length →
      (∀ p ∈ bonds, p.1 < atom.length ∧ p.2 < atom.length) →
      ∀ k, k < atom.length →
      (aggregate_bonds bonds imp atom).getD k 0 =
        atom.getD k 0 + ((bonds.zip imp).map
          (fun pb => (if pb.1.1 = k then pb.2 / 2 else 0) +
            (if pb.1.2 = k then pb.2 / 2 else 0))).sum) ∧
    aggregate_bonds [(0, 1), (1, 2)] [1/5, 2/5] [0, 0, 0] = [1/10, 3/10, 1/5] ∧
    (∀ (bonds : List (Nat × Nat)) (atom : List ℚ),
      aggregate_molecule bonds none atom = atom) := by
  refine ⟨aggregate_bonds_getD, ?_, fun _ _ => rfl⟩
  simp [aggregate_bonds, addAt]
  norm_num

/-- Witness for C4 at a concrete input: a single bond of importance 1
between atoms 0 and 1 contributes one half to atom 0. -/
theorem C4_witness :
    (aggregate_bonds [(0, 1)] [1] [0, 0]).getD 0 0 =
      [(0 : ℚ), 0].getD 0 0 + (([((0 : Nat), (1 : Nat))].zip [(1 : ℚ)]).map
        (fun pb => (if pb.1.1 = 0 then pb.2 / 2 else 0) +
          (if pb.1.2 = 0 then pb.2 / 2 else 0))).sum :=
  C4_aggregation_spec.1 [(0, 1)] [1] [0, 0] (by simp) (by simp) 0 (by simp)

/-- C5: for equal-length bond and importance lists with valid endpoint
indices, aggregation conserves total mass: the sum of the atom vector
afterwards equals the sum before plus the sum of all bond importances. -/
theorem C5_aggregation_conservation :
    ∀ (bonds : List (Nat × Nat)) (imp : List ℚ) (atom : List ℚ),
      bonds.length = imp.length →
      (∀ p ∈ bonds, p.1 < atom.length ∧ p.2 < atom.length) →
      (aggregate_bonds bonds imp atom).sum = atom.sum + imp.sum :=
  aggregate_bonds_sum

/-- Witness for C5 at a concrete input: the spec's three-atom example
conserves mass. -/
theorem C5_witness :
    (aggregate_bonds [(0, 1), (1, 2)] [1/5, 2/5] [0, 0, 0]).sum =
      [(0 : ℚ), 0, 0].sum + [(1 : ℚ)/5, 2/5].sum :=
  C5_aggregation_conservation [(0, 1), (1, 2)] [1/5, 2/5] [0, 0, 0]
    (by simp) (by simp) 

/-- C8 counterexample: the claim says an unrecognized strategy name
surfaces a ConfigurationError and produces no output.  The source only
tests for the name QuantileTransformer and otherwise builds a
MinMaxScaler, so the unrecognized name bogus produces a normal
normalization output. -/
theorem C8_unrecognized_strategy_counterexample :
    normalize_attributions [[1, 2]] false "bogus" = some [[0, 1]] := by
  simp [normalize_attributions, minMaxTransform, dataMin, dataMax]
  norm_num

/-- C8 amended: an unrecognized normalization strategy name is not
rejected; every name other than QuantileTransformer selects the
MinMaxScaler branch, and output is produced exactly as for the min-max
strategy. -/
theorem C8_unrecognized_strategy_fallback :
    ∀ (att : List (List ℚ)) (pos : Bool) (s : String),
      s ≠ "QuantileTransformer" →
      normalize_attributions att pos s = normalize_attributions att pos "MinMaxScaler" := by
  intro att pos s hs
  simp [normalize_attributions, hs]

/-- Witness for C8 at a concrete input. -/
theorem C8_witness :
    ("bogus" : String) ≠ "QuantileTransformer" ∧
    normalize_attributions [[1, 2]] false "bogus" =
      normalize_attributions [[1, 2]] false "MinMaxScaler" :=
  ⟨by decide, C8_unrecognized_strategy_fallback [[1, 2]] false "bogus" (by decide)⟩

end MolRep

namespace MolRep

/-- A list_index lookup succeeds exactly when the identifier occurs in
the list. -/
theorem list_index_isSome (l : List String) (s : String) :
    (list_index l s).isSome = true ↔ s ∈ l := by
  induction l with
  | nil => simp [list_index]
  | cons x rest ih =>
    by_cases h : x = s
    · subst h; simp [list_index]
    · simp [list_index, h, ih, Ne.symm h]

/-- A list_index lookup of an absent identifier returns none. -/
theorem list_index_eq_none (l : List String) (s : String) (h : s ∉ l) :
    list_index l s = none := by
  cases e : list_index l s with
  | none => rfl
  | some k => exact absurd ((list_index_isSome l s).mp (by simp [e])) h

/-- When every pair record resolves, the assembly loop produces the two
flat lists in pair order: predicted vector of molecule A, then of
molecule B, repeated per pair, and the two ground-truth vectors
likewise. -/
theorem cliff_assemble_ok (smiles_list : List String) (att_probs : List (List ℚ)) :
    ∀ pairs : List PairRecord,
      (∀ p ∈ pairs, p.SMILES_1 ∈ smiles_list ∧ p.SMILES_2 ∈ smiles_list) →
      cliff_assemble smiles_list att_probs pairs =
        Except.ok
          ((pairs.map (fun p =>
              [att_probs.getD ((list_index smiles_list p.SMILES_1).getD 0) [],
               att_probs.getD ((list_index smiles_list p.SMILES_2).getD 0) []])).flatten,
           (pairs.map (fun p => [p.attribution_1, p.attribution_2])).flatten) := by
  intro pairs
  induction pairs with
  | nil => intro _; simp [cliff_assemble]
  | cons p rest ih =>
    intro h
    have hp := h p (List.mem_cons_self _ _)
    obtain ⟨k1, e1⟩ : ∃ k, list_index smiles_list p.SMILES_1 = some k := by
      have := (list_index_isSome smiles_list p.SMILES_1).mpr hp.1
      cases e : list_index smiles_list p.SMILES_1 with
      | none => rw [e] at this; simp at this
      | some k => exact ⟨k, rfl⟩
    obtain ⟨k2, e2⟩ : ∃ k, list_index smiles_list p.SMILES_2 = some k := by
      have := (list_index_isSome smiles_list p.SMILES_2).mpr hp.2
      cases e : list_index smiles_list p.SMILES_2 with
      | none => rw [e] at this; simp at this
      | some k => exact ⟨k, rfl⟩
    have hrest := ih (fun q hq => h q (List.mem_cons_of_mem _ hq))
    simp [cliff_assemble, e1, e2, hrest]

/-- Any unresolvable pair record anywhere in the list aborts the whole
assembly with a lookup failure. -/
theorem cliff_assemble_error (smiles_list : List String) (att_probs : List (List ℚ)) :
    ∀ pairs : List PairRecord,
      (∃ p ∈ pairs, p.SMILES_1 ∉ smiles_list ∨ p.SMILES_2 ∉ smiles_list) →
      cliff_assemble smiles_list att_probs pairs = Except.error CliffError.lookupFailure := by
  intro pairs
  induction pairs with
  | nil => intro h; simp at h
  | cons p rest ih =>
    intro h
    obtain ⟨q, hq, hbad⟩ := h
    rcases List.mem_cons.mp hq with hq | hq
    · subst hq
      rcases hbad with hbad | hbad
      · simp [cliff_assemble, list_index_eq_none _ _ hbad]
      · cases e1 : list_index smiles_list q.SMILES_1 with
        | none => simp [cliff_assemble, e1]
        | some k1 => simp [cliff_assemble, e1, list_index_eq_none _ _ hbad]
    · cases e1 : list_index smiles_list p.SMILES_1 with
      | none => simp [cliff_assemble, e1]
      | some k1 =>
        cases e2 : list_index smiles_list p.SMILES_2 with
        | none => simp [cliff_assemble, e1, e2]
        | some k2 =>
          have hrest := ih ⟨q, hq, hbad⟩
          simp [cliff_assemble, e1, e2, hrest]

/-- C6: when every pair record of the cliff ground truth resolves in
the evaluation molecule list, the evaluation assembles the flat
predicted and ground-truth lists in pair order (A then B, repeated per
pair), where each identifier is resolved to its first position in the
molecule list, and then binarizes the predicted vectors three-way:
above one half to 1, below minus one half to -1, otherwise 0. -/
theorem C6_cliff_assembly :
    ∀ (smiles_list : List String) (att_probs : List (List ℚ)) (pairs : List PairRecord),
      (∀ p ∈ pairs, p.SMILES_1 ∈ smiles_list ∧ p.SMILES_2 ∈ smiles_list) →
      evaluate_cliffs_core smiles_list att_probs pairs =
        Except.ok
          ((pairs.map (fun p =>
              [att_probs.getD ((list_index smiles_list p.SMILES_1).getD 0) [],
               att_probs.getD ((list_index smiles_list p.SMILES_2).getD 0) []])).flatten,
           (pairs.map (fun p => [p.attribution_1, p.attribution_2])).flatten,
           ((pairs.map (fun p =>
              [att_probs.getD ((list_index smiles_list p.SMILES_1).getD 0) [],
               att_probs.getD ((list_index smiles_list p.SMILES_2).getD 0) []])).flatten).map
             (fun att => att.map binarize3)) := by
  intro sl ap pairs h
  simp [evaluate_cliffs_core, cliff_assemble_ok sl ap pairs h]

/-- Witness for C6 at a concrete input: one pair naming the second and
then the first molecule; the predicted vectors are assembled in pair
order and binarized three-way. -/
theorem C6_witness :
    evaluate_cliffs_core ["a", "b"] [[1], [0]]
      [PairRecord.mk "b" "a" [1] [-1]] =
      Except.ok ([[0], [1]], [[1], [-1]], [[0], [1]]) := by
  have h := C6_cliff_assembly ["a", "b"] [[1], [0]]
    [PairRecord.mk "b" "a" [1] [-1]] (by simp)
  rw [h]
  simp [list_index]
  norm_num [binarize3]

/-- C7: a pair record naming a molecule identifier absent from the
evaluation molecule list makes the whole cliff evaluation fail with a
lookup error; no partial output is produced. -/
theorem C7_cliff_lookup_failure :
    ∀ (smiles_list : List String) (att_probs : List (List ℚ)) (pairs : List PairRecord),
      (∃ p ∈ pairs, p.SMILES_1 ∉ smiles_list ∨ p.SMILES_2 ∉ smiles_list) →
      evaluate_cliffs_core smiles_list att_probs pairs =
        Except.error CliffError.lookupFailure := by
  intro sl ap pairs h
  simp [evaluate_cliffs_core, cliff_assemble_error sl ap pairs h]

/-- Witness for C7 at a concrete input: a pair record naming the
unknown identifier z aborts the evaluation. -/
theorem C7_witness :
    evaluate_cliffs_core ["a"] [[1]] [PairRecord.mk "z" "a" [] []] =
      Except.error CliffError.lookupFailure :=
  C7_cliff_lookup_failure ["a"] [[1]] [PairRecord.mk "z" "a" [] []]
    ⟨PairRecord.mk "z" "a" [] [], by simp, Or.inl (by simp)⟩

end MolRep

namespace MolRep

/-- An atom colouring step leaves every other index untouched. -/
theorem atom_col_step_ne (eps : ℚ) (sw : Bool) (idx : Nat) (v : ℚ) (acc) (k : Nat)
    (hk : k ≠ idx) :
    (atom_col_step eps sw idx v acc).1 k = acc.1 k ∧
    (atom_col_step eps sw idx v acc).2 k = acc.2 k := by
  simp only [atom_col_step]
  split_ifs <;> simp [upd, hk]

/-- The value an atom colouring step writes at its own index. -/
theorem atom_col_step_self (eps : ℚ) (sw : Bool) (idx : Nat) (v : ℚ) (acc) :
    (atom_col_step eps sw idx v acc).1 idx =
      (if v > eps ∨ v < -eps then some RED_COL else acc.1 idx) ∧
    (atom_col_step eps sw idx v acc).2 idx =
      (if v < -eps ∧ sw = true then some (format3 v) else acc.2 idx) := by
  constructor
  · by_cases h2 : v < -eps
    · simp [atom_col_step, h2, upd]
    · by_cases h1 : v > eps
      · simp [atom_col_step, h1, h2, upd]
      · simp [atom_col_step, h1, h2, upd]
  · by_cases h2 : v < -eps
    · cases sw with
      | true => simp [atom_col_step, h2, upd]
      | false => by_cases h1 : v > eps <;> simp [atom_col_step, h1, h2, upd]
    · by_cases h1 : v > eps <;> simp [atom_col_step, h1, h2, upd]

/-- The atom colouring loop never touches indices below its running
index. -/
theorem determine_atom_col_aux_stable (eps : ℚ) (sw : Bool) :
    ∀ (l : List ℚ) (idx : Nat) (acc) (k : Nat), k < idx →
      (determine_atom_col_aux eps sw idx l acc).1 k = acc.1 k ∧
      (determine_atom_col_aux eps sw idx l acc).2 k = acc.2 k := by
  intro l
  induction l with
  | nil => intro idx acc k _; simp [determine_atom_col_aux]
  | cons v rest ih =>
    intro idx acc k hk
    have hne : k ≠ idx := Nat.ne_of_lt hk
    have h := ih (idx + 1) (atom_col_step eps sw idx v acc) k (by omega)
    have hs := atom_col_step_ne eps sw idx v acc k hne
    simp only [determine_atom_col_aux]
    exact ⟨h.1.trans hs.1, h.2.trans hs.2⟩

/-- Colour and note text of the atom colouring loop at the position of
each visited element. -/
theorem determine_atom_col_aux_at (eps : ℚ) (sw : Bool) :
    ∀ (l : List ℚ) (idx : Nat) (acc) (j : Nat), j < l.length →
      (determine_atom_col_aux eps sw idx l acc).1 (idx + j) =
        (if l.getD j 0 > eps ∨ l.getD j 0 < -eps then some RED_COL else acc.1 (idx + j)) ∧
      (determine_atom_col_aux eps sw idx l acc).2 (idx + j) =
        (if l.getD j 0 < -eps ∧ sw = true then some (format3 (l.getD j 0)) else acc.2 (idx + j)) := by
  intro l
  induction l with
  | nil => intro idx acc j hj; simp at hj
  | cons v rest ih =>
    intro idx acc j hj
    cases j with
    | zero =>
      have h := determine_atom_col_aux_stable eps sw rest (idx + 1)
        (atom_col_step eps sw idx v acc) idx (by omega)
      have hs := atom_col_step_self eps sw idx v acc
      simp only [determine_atom_col_aux, Nat.add_zero, List.getD_cons_zero]
      exact ⟨h.1.trans hs.1, h.2.trans hs.2⟩
    | succ j =>
      have hj' : j < rest.length := by simpa using hj
      have h := ih (idx + 1) (atom_col_step eps sw idx v acc) j hj'
      have hs := atom_col_step_ne eps sw idx v acc ((idx + 1) + j) (by omega)
      have harith : idx + (j + 1) = (idx + 1) + j := by omega
      simp only [determine_atom_col_aux, harith, List.getD_cons_succ]
      rw [h.1, h.2] at *
      constructor
      · rw [hs.1]
      · rw [hs.2]

/-- A bond colouring step leaves every other index untouched. -/
theorem bond_col_step_ne (atom_col : Nat → Option Color) (idx : Nat) (b : Nat × Nat)
    (acc : Nat → Option Color) (k : Nat) (hk : k ≠ idx) :
    bond_col_step atom_col idx b acc k = acc k := by
  simp only [bond_col_step]
  cases atom_col b.1 <;> cases atom_col b.2 <;> simp [upd, hk]
  split_ifs <;> simp [upd, hk]

/-- The value a bond colouring step writes at its own index. -/
theorem bond_col_step_self (atom_col : Nat → Option Color) (idx : Nat) (b : Nat × Nat)
    (acc : Nat → Option Color) :
    bond_col_step atom_col idx b acc idx =
      (match atom_col b.1, atom_col b.2 with
       | some ci, some cj => if ci = cj then some ci else acc idx
       | _, _ => acc idx) := by
  simp only [bond_col_step]
  cases atom_col b.1 <;> cases atom_col b.2 <;> simp [upd]
  split_ifs <;> simp [upd]

/-- The bond colouring loop never touches indices below its running
index. -/
theorem determine_bond_col_aux_stable (atom_col : Nat → Option Color) :
    ∀ (bonds : List (Nat × Nat)) (idx : Nat) (acc : Nat → Option Color) (k : Nat),
      k < idx →
      determine_bond_col_aux atom_col idx bonds acc k = acc k := by
  intro bonds
  induction bonds with
  | nil => intro idx acc k _; simp [determine_bond_col_aux]
  | cons b rest ih =>
    intro idx acc k hk
    have hne : k ≠ idx := Nat.ne_of_lt hk
    simp only [determine_bond_col_aux]
    rw [ih (idx + 1) _ k (by omega), bond_col_step_ne atom_col idx b acc k hne]

/-- Colour of the bond colouring loop at the position of each visited
bond. -/
theorem determine_bond_col_aux_at (atom_col : Nat → Option Color) :
    ∀ (bonds : List (Nat × Nat)) (idx : Nat) (acc : Nat → Option Color) (j : Nat),
      j < bonds.length →
      determine_bond_col_aux atom_col idx bonds acc (idx + j) =
        (match atom_col (bonds.getD j (0, 0)).1, atom_col (bonds.getD j (0, 0)).2 with
         | some ci, some cj => if ci = cj then some ci else acc (idx + j)
         | _, _ => acc (idx + j)) := by
  intro bonds
  induction bonds with
  | nil => intro idx acc j hj; simp at hj
  | cons b rest ih =>
    intro idx acc j hj
    cases j with
    | zero =>
      simp only [determine_bond_col_aux, Nat.add_zero, List.getD_cons_zero]
      rw [determine_bond_col_aux_stable atom_col rest (idx + 1) _ idx (by omega)]
      exact bond_col_step_self atom_col idx b acc
    | succ j =>
      have hj' : j < rest.length := by simpa using hj
      have harith : idx + (j + 1) = (idx + 1) + j := by omega
      simp only [determine_bond_col_aux, harith, List.getD_cons_succ]
      rw [ih (idx + 1) _ j hj']
      cases atom_col (rest.getD j (0, 0)).1 <;> cases atom_col (rest.getD j (0, 0)).2 <;>
        simp [bond_col_step_ne atom_col idx b acc ((idx + 1) + j) (by omega)]

/-- C9: for every atom importance vector and threshold eps, an atom
index idx with value v above eps is assigned the highlight colour
constant RED_COL; an index with v below -eps is assigned the same
colour constant and additionally receives the note text of v rendered
with three decimal places; an index with absolute value at most eps is
absent from the colour mapping; and the mapping is deterministic, being
a pure function of the inputs. -/
theorem C9_atom_coloring :
    ∀ (imp : List ℚ) (eps : ℚ) (idx : Nat), idx < imp.length →
      ((imp.getD idx 0 > eps → (determine_atom_col imp eps true).1 idx = some RED_COL) ∧
       (imp.getD idx 0 < -eps →
         (determine_atom_col imp eps true).1 idx = some RED_COL ∧
         (determine_atom_col imp eps true).2 idx = some (format3 (imp.getD idx 0))) ∧
       (|imp.getD idx 0| ≤ eps → (determine_atom_col imp eps true).1 idx = none)) ∧
      determine_atom_col imp eps true = determine_atom_col imp eps true := by
  intro imp eps idx hidx
  have h := determine_atom_col_aux_at eps true imp 0 (fun _ => none, fun _ => none) idx hidx
  simp only [Nat.zero_add] at h
  refine ⟨⟨?_, ?_, ?_⟩, rfl⟩
  · intro hv
    rw [determine_atom_col, h.1, if_pos (Or.inl hv)]
  · intro hv
    constructor
    · rw [determine_atom_col, h.1, if_pos (Or.inr hv)]
    · rw [determine_atom_col, h.2, if_pos ⟨hv, by trivial⟩]
  · intro hv
    have h1 : ¬ imp.getD idx 0 > eps := by
      have := abs_le.mp hv
      linarith [le_abs_self (imp.getD idx 0)]
    have h2 : ¬ imp.getD idx 0 < -eps := by
      have := abs_le.mp hv
      linarith [neg_abs_le (imp.getD idx 0)]
    rw [determine_atom_col, h.1, if_neg (by tauto)]

/-- Witness for C9 at a concrete input: with threshold one half, the
first atom of the vector [1, -1] is coloured RED_COL. -/
theorem C9_witness :
    (determine_atom_col [(1 : ℚ), -1] (1/2) true).1 0 = some RED_COL :=
  (C9_atom_coloring [(1 : ℚ), -1] (1/2) 0 (by norm_num)).1.1 (by norm_num)

/-- C10: a bond of the molecule bond list receives a colour exactly
when both endpoint atoms carry the same assigned colour, and then it
receives that shared colour. -/
theorem C10_bond_coloring :
    ∀ (atom_col : Nat → Option Color) (bonds : List (Nat × Nat)) (idx : Nat) (c : Color),
      idx < bonds.length →
      (determine_bond_col atom_col bonds idx = some c ↔
        atom_col (bonds.getD idx (0, 0)).1 = some c ∧
        atom_col (bonds.getD idx (0, 0)).2 = some c) := by
  intro atom_col bonds idx c hidx
  have h := determine_bond_col_aux_at atom_col bonds 0 (fun _ => none) idx hidx
  simp only [Nat.zero_add] at h
  rw [determine_bond_col, h]
  cases e1 : atom_col (bonds.getD idx (0, 0)).1 with
  | none => simp
  | some ci =>
    cases e2 : atom_col (bonds.getD idx (0, 0)).2 with
    | none => simp
    | some cj =>
      by_cases hc : ci = cj
      · subst hc
        simp
      · simp [hc]
        intro h1 h2
        subst h1
        exact absurd h2.symm hc

/-- Witness for C10 at a concrete input: the single bond (0, 1) whose
endpoints are both coloured RED_COL receives RED_COL. -/
theorem C10_witness :
    determine_bond_col (fun j => if j ≤ 1 then some RED_COL else none) [(0, 1)] 0 =
      some RED_COL :=
  (C10_bond_coloring (fun j => if j ≤ 1 then some RED_COL else none) [(0, 1)] 0 RED_COL
    (by simp)).mpr (by simp)

end MolRep
